import Mathlib

/-!
Shallow embedding of the XraySubRefiner normalization pipeline
(src/cmd/xraysubrefiner/main.go).

Go strings and byte slices are modelled as lists of byte values
(`List Nat`, each element a byte < 256 where it matters).  All
functions below are translated from the Go source; the few
definitions that model a collaborator (Go's standard library
base64 decoder, the filesystem states seen during an atomic
write) say so in their doc comment.
-/

namespace XraySubRefiner

/-- Go strings / byte slices, as lists of byte values. -/
abbrev GoStr := List Nat

/-- Bytes of an ASCII string literal (used only for concrete ASCII inputs). -/
def strBytes (s : String) : GoStr := s.toList.map Char.toNat

/-- ASCII model of `unicode.IsSpace`, as used by `strings.TrimSpace` /
`bytes.TrimSpace`: space, tab, newline, vertical tab, form feed, carriage
return. -/
def isSpaceB (b : Nat) : Bool := b = 32 || (9 ≤ b && b ≤ 13)

/-- `strings.TrimSpace` (ASCII model): drop whitespace from both ends. -/
def trimB (l : GoStr) : GoStr :=
  ((l.dropWhile isSpaceB).reverse.dropWhile isSpaceB).reverse

/-- ASCII byte lowercasing, the model of `strings.ToLower` on the
ASCII inputs this pipeline deals with. -/
def lower1 (b : Nat) : Nat := if 65 ≤ b && b ≤ 90 then b + 32 else b

/-- `strings.ToLower` (ASCII model), applied bytewise. -/
def lowerB (l : GoStr) : GoStr := l.map lower1

/-- The byte sequence of the separator `"://"`. -/
def sep : GoStr := [58, 47, 47]

/-- `strings.Index s pat` for a fixed nonempty pattern: byte index of the
first occurrence, `none` when absent (Go returns -1). -/
def subIdx (pat : GoStr) : GoStr → Option Nat
  | [] => if pat.isPrefixOf [] then some 0 else none
  | a :: rest =>
    if pat.isPrefixOf (a :: rest) then some 0
    else (subIdx pat rest).map (· + 1)

/-- `strings.Count s "://"`: number of non-overlapping occurrences of
`"://"`, scanning left to right. -/
def countSep : GoStr → Nat
  | 58 :: 47 :: 47 :: rest => 1 + countSep rest
  | _ :: rest => countSep rest
  | [] => 0

/-- `isSchemeChar` from main.go: an ASCII letter. -/
def isSchemeChar (c : Nat) : Bool :=
  (97 ≤ c && c ≤ 122) || (65 ≤ c && c ≤ 90)

/-- The backward walk of `splitPossible`: from position `idx` (the start of a
`"://"` occurrence) walk left over ASCII letters; returns the resulting
start index (Go lines 222-226). -/
def schemeStart (cur : GoStr) (idx : Nat) : Nat :=
  idx - ((cur.take idx).reverse.takeWhile isSchemeChar).length

/-- The loop body of `splitPossible` (Go lines 217-236), with explicit fuel;
`splitPossible` supplies fuel `cur.length`, which exceeds the number of
iterations (each iteration drops at least 3 bytes from `cur`). -/
def splitGo : Nat → GoStr → List GoStr
  | 0, _ => []
  | fuel + 1, cur =>
    match subIdx sep cur with
    | none => []
    | some idx =>
      let rest := cur.drop (schemeStart cur idx)
      match subIdx sep (rest.drop 3) with
      | some next => trimB (rest.take (next + 3)) :: splitGo fuel (rest.drop (next + 3))
      | none => [trimB rest]

/-- `splitPossible` from main.go: lines holding `"://"` at most once pass
through whole; otherwise the scan loop runs. -/
def splitPossible (s : GoStr) : List GoStr :=
  if countSep s ≤ 1 then [s] else splitGo s.length s

/-- `\s` of Go's regexp package: `[\t\n\f\r ]`. -/
def isRegexSpace (b : Nat) : Bool := b = 32 || b = 9 || b = 10 || b = 12 || b = 13

/-- `reCommentLine`, the regexp `^\s*(#|//|;).*$`: after optional leading
whitespace the line starts with `#`, `//` or `;`. -/
def isCommentLine (l : GoStr) : Bool :=
  match l.dropWhile isRegexSpace with
  | 35 :: _ => true
  | 59 :: _ => true
  | 47 :: 47 :: _ => true
  | _ => false

/-- `normalizeScheme` from main.go: lowercase everything before the first
`"://"`, keep the rest byte-identical; no `"://"` means no change. -/
def normalizeScheme (s : GoStr) : GoStr :=
  match subIdx sep s with
  | none => s
  | some idx => lowerB (s.take idx) ++ s.drop idx

/-- The allowed-scheme test of `parseAndFilterLines` (Go lines 186-193):
some allowed scheme followed by `"://"` prefixes the lowercased segment. -/
def schemeAllowed (allowed : List GoStr) (it : GoStr) : Bool :=
  allowed.any (fun sch => (sch ++ sep).isPrefixOf (lowerB it))

/-- Per-segment step of `parseAndFilterLines` (Go lines 181-198): trim,
drop blanks and comments, keep allowed schemes, emit normalized. -/
def segEntries (allowed : List GoStr) (it0 : GoStr) : List GoStr :=
  let it := trimB it0
  if it = [] then []
  else if isCommentLine it then []
  else if schemeAllowed allowed it then [normalizeScheme it] else []

/-- Per-line step of `parseAndFilterLines` (Go lines 176-198). -/
def lineEntries (allowed : List GoStr) (raw : GoStr) : List GoStr :=
  let line := trimB raw
  if line = [] then []
  else if isCommentLine line then []
  else (splitPossible line).flatMap (segEntries allowed)

/-- The raw split of a byte blob on `'\n'` (byte 10): standard split
semantics, one more part than separators; this is also the spec-level
`strings.Split(s, "\n")`. -/
def splitOnNl : GoStr → List GoStr
  | [] => [[]]
  | a :: rest =>
    if a = 10 then [] :: splitOnNl rest
    else (a :: (splitOnNl rest).headI) :: (splitOnNl rest).tail

/-- The tokens `bufio.Scanner` with `ScanLines` produces before the
trailing-`\r` strip: split on `'\n'`, except that empty input yields no
token and a trailing `'\n'` does not open a final empty token. -/
def scanTokens (b : GoStr) : List GoStr :=
  if b = [] then []
  else
    let parts := splitOnNl b
    if parts.getLast? = some [] then parts.dropLast else parts

/-- `dropCR` of `bufio.ScanLines`: strip one trailing `'\r'`. -/
def dropCR (l : GoStr) : GoStr :=
  if l.getLast? = some 13 then l.dropLast else l

/-- The scanner buffer limit set in `parseAndFilterLines`:
`sc.Buffer(buf, 10*1024*1024)`. -/
def maxScanTokenSize : Nat := 10 * 1024 * 1024

/-- The line sequence `parseAndFilterLines` actually iterates (Go lines
170-175): the scanner yields lines until the first token above the buffer
limit, where `Scan` returns false for good; `sc.Err()` is never consulted,
so the overlong token and everything after it are dropped silently. -/
def goScanLines (b : GoStr) : List GoStr :=
  ((scanTokens b).takeWhile (fun t => t.length ≤ maxScanTokenSize)).map dropCR

/-- `parseAndFilterLines` from main.go. -/
def parseAndFilterLines (b : GoStr) (allowed : List GoStr) : List GoStr :=
  (goScanLines b).flatMap (lineEntries allowed)

/-- The loop of `dedupe` (Go lines 247-257), with the `seen` set as a list
(only membership is used). -/
def dedupeGo (seen : List GoStr) : List GoStr → List GoStr
  | [] => []
  | s :: rest =>
    let k := trimB s
    if k = [] then dedupeGo seen rest
    else if k ∈ seen then dedupeGo seen rest
    else k :: dedupeGo (k :: seen) rest

/-- `dedupe` from main.go: trim each entry, drop empties, keep the first
occurrence of each distinct trimmed string. -/
def dedupe (l : List GoStr) : List GoStr := dedupeGo [] l

/-- `buildLiteTail` from main.go: the last `n` items of `normal` in order,
with `n ≤ 0` replaced by 100 and `n` clamped to the list length. -/
def buildLiteTail (normal : List GoStr) (n : Int) : List GoStr :=
  let n1 : Int := if n ≤ 0 then 100 else n
  let n2 : Int := if n1 > (normal.length : Int) then (normal.length : Int) else n1
  normal.drop ((normal.length : Int) - n2).toNat

/-- The base64 standard-alphabet character for a 6-bit value (the encode
table `A-Za-z0-9+/` of `encoding/base64.StdEncoding`). -/
def b64chr (n : Nat) : Nat :=
  if n < 26 then 65 + n
  else if n < 52 then 71 + n
  else if n < 62 then n - 4
  else if n = 62 then 43
  else 47

/-- Value of a base64 alphabet byte, `none` for bytes outside the standard
alphabet (this includes the padding byte `'='`). -/
def b64index (c : Nat) : Option Nat :=
  if 65 ≤ c && c ≤ 90 then some (c - 65)
  else if 97 ≤ c && c ≤ 122 then some (c - 71)
  else if 48 ≤ c && c ≤ 57 then some (c + 4)
  else if c = 43 then some 62
  else if c = 47 then some 63
  else none

/-- `base64.StdEncoding.EncodeToString`: standard padded base64. -/
def encodeChunks : List Nat → GoStr
  | b0 :: b1 :: b2 :: rest =>
    b64chr (b0 / 4) :: b64chr (b0 % 4 * 16 + b1 / 16) ::
      b64chr (b1 % 16 * 4 + b2 / 64) :: b64chr (b2 % 64) :: encodeChunks rest
  | [b0, b1] => [b64chr (b0 / 4), b64chr (b0 % 4 * 16 + b1 / 16), b64chr (b1 % 16 * 4), 61]
  | [b0] => [b64chr (b0 / 4), b64chr (b0 % 4 * 16), 61, 61]
  | [] => []

/-- Strict standard-alphabet padded base64 decoding of a blob already free
of newline bytes: quanta of four characters, padding only at the very end. -/
def decodeChunks : GoStr → Option (List Nat)
  | [] => some []
  | c1 :: c2 :: c3 :: c4 :: rest =>
    match b64index c1, b64index c2 with
    | some n1, some n2 =>
      if c3 = 61 then
        if c4 = 61 then
          if rest = [] then some [n1 * 4 + n2 / 16] else none
        else none
      else
        match b64index c3 with
        | some n3 =>
          if c4 = 61 then
            if rest = [] then some [n1 * 4 + n2 / 16, n2 % 16 * 16 + n3 / 4] else none
          else
            match b64index c4 with
            | some n4 =>
              match decodeChunks rest with
              | some bs =>
                some ((n1 * 4 + n2 / 16) :: (n2 % 16 * 16 + n3 / 4) :: (n3 % 4 * 64 + n4) :: bs)
              | none => none
            | none => none
        | none => none
    | _, _ => none
  | _ => none

/-- Model of `base64.StdEncoding.DecodeString`: Go's decoder skips the
bytes `'\r'` and `'\n'` wherever they appear in its input and is strict
otherwise. -/
def base64Decode (s : GoStr) : Option (List Nat) :=
  decodeChunks (s.filter (fun c => !(c = 10 || c = 13)))

/-- `rePossibleB64`, the regexp `^[A-Za-z0-9+/=\r\n]+$`: every byte in the
class, and at least one byte. -/
def isB64ClassByte (b : Nat) : Bool :=
  (65 ≤ b && b ≤ 90) || (97 ≤ b && b ≤ 122) || (48 ≤ b && b ≤ 57) ||
    b = 43 || b = 47 || b = 61 || b = 13 || b = 10

/-- Whether `rePossibleB64` matches the blob. -/
def possibleB64 (l : GoStr) : Bool := !l.isEmpty && l.all isB64ClassByte

/-- The scheme-substring gate of `tryDecodeIfBase64` (Go lines 161-164):
the lowercased decoded text holds `vless://`, `vmess://` or `ss://`. -/
def containsSub (pat : GoStr) : GoStr → Bool
  | [] => pat.isPrefixOf []
  | a :: rest => pat.isPrefixOf (a :: rest) || containsSub pat rest

/-- The decoded-content check of `tryDecodeIfBase64`. -/
def schemeHit (dec : GoStr) : Bool :=
  containsSub (strBytes "vless://") (lowerB dec) ||
    containsSub (strBytes "vmess://") (lowerB dec) ||
    containsSub (strBytes "ss://") (lowerB dec)

/-- `tryDecodeIfBase64` from main.go: trim; pass non-candidates through;
decode, retrying with `'\n'` bytes removed (`strings.ReplaceAll(s, "\n",
"")`); keep the decode only when the decoded text mentions a known
scheme. -/
def tryDecodeIfBase64 (b : GoStr) : GoStr :=
  let trim := trimB b
  if trim = [] then trim
  else if !possibleB64 trim then b
  else
    match base64Decode trim with
    | some dec => if schemeHit dec then dec else b
    | none =>
      match base64Decode (trim.filter (fun c => !(c = 10))) with
      | some dec2 => if schemeHit dec2 then dec2 else b
      | none => b

/-- `LiteCfg` from main.go. -/
structure LiteCfg where
  strategy : GoStr
  maxTotal : Int
  perHostLimit : Int
  n : Int

/-- `Config` from main.go (subscriptions as key/url byte-string pairs). -/
structure Config where
  allowedSchemes : List GoStr
  lite : LiteCfg
  subscriptions : List (GoStr × GoStr)

/-- The defaulting done by `loadConfig` (Go lines 114-120). -/
def applyConfigDefaults (cfg : Config) : Config :=
  { cfg with
    lite :=
      { cfg.lite with
        maxTotal := if cfg.lite.maxTotal ≤ 0 then 100 else cfg.lite.maxTotal
        n := if cfg.lite.n ≤ 0 then 100 else cfg.lite.n } }

/-- The allowed-scheme set built in `main` (Go lines 66-74), as a list:
lowercased trimmed configured schemes, or the default three when none are
configured.  Only membership matters downstream. -/
def allowedSet (cfg : Config) : List GoStr :=
  let m := cfg.allowedSchemes.map (fun s => lowerB (trimB s))
  if m = [] then [strBytes "vless", strBytes "vmess", strBytes "ss"] else m

/-- The per-source pipeline of `main` (Go lines 84-88): decode, extract and
filter, dedupe, and take the lite tail — which `main` builds with the
literal tail size 100, not the configured `cfg.lite.n`. -/
def processSource (cfg : Config) (raw : GoStr) : List GoStr × List GoStr :=
  let decoded := tryDecodeIfBase64 raw
  let valid := parseAndFilterLines decoded (allowedSet cfg)
  let normal := dedupe valid
  (normal, buildLiteTail normal 100)

/-- Go bytewise string comparison `a <= b` (lexicographic byte order,
shorter prefix first). -/
def leBytes : GoStr → GoStr → Bool
  | [], _ => true
  | _ :: _, [] => false
  | a :: as, b :: bs => if a < b then true else if b < a then false else leBytes as bs

/-- The order relation of `sort.Strings`. -/
def LeB (a b : GoStr) : Prop := leBytes a b = true

instance : DecidableRel LeB := fun a b => by unfold LeB; infer_instance

/-- The effect of `sort.Strings` (Go `writeBase64Sorted`, line 294): the
sorted permutation in bytewise lexicographic order.  Any correct sort
produces this same list, so insertion sort stands in for Go's pdqsort. -/
def sortStrings (l : List GoStr) : List GoStr := List.insertionSort LeB l

/-- `strings.Join(lines, "\n")` (Go `writeBase64Atomic`, line 306). -/
def joinNl : List GoStr → GoStr
  | [] => []
  | [l] => l
  | l :: ls => l ++ 10 :: joinNl ls

/-- The byte content `writeBase64Atomic` persists at the final path:
the newline-joined lines, whole-blob base64 encoded (Go lines 306-307). -/
def writeBase64AtomicContent (lines : List GoStr) : GoStr :=
  encodeChunks (joinNl lines)

/-- The content written by `writeBase64Sorted`: sorted first. -/
def writeBase64SortedContent (lines : List GoStr) : GoStr :=
  writeBase64AtomicContent (sortStrings lines)

/-- The sequence of states of the final path during one successful
`writeBase64Atomic` run that hits `busyFailures` busy rename errors
(Go lines 305-349): the temp-file phase leaves the path untouched
(`prev`, the prior state — `none` when no file existed); each retry
round first runs `os.Remove(path)`, after which the path has no file;
the successful `os.Rename` installs the complete new content. -/
def writeAtomicTrace (prev : Option GoStr) (lines : List GoStr) (busyFailures : Nat) :
    List (Option GoStr) :=
  [prev, prev] ++ List.replicate (busyFailures + 1) none ++
    [some (writeBase64AtomicContent lines)]

/-- Modelled from the spec (§4.4 Deduplicator, claim C7 wording): keep, in
first-seen order, the trimmed form of each entry that is nonempty after
trimming, erasing all later duplicates of it. -/
def dedupSpecFirstSeen : List GoStr → List GoStr
  | [] => []
  | s :: rest =>
    let k := trimB s
    if k = [] then dedupSpecFirstSeen rest
    else k :: (dedupSpecFirstSeen rest).filter (fun x => x ≠ k)

/-- Modelled from the spec (§4.1 PayloadDecoder, claim C3 wording): like
`tryDecodeIfBase64`, but the retry strips all newline characters, both
`'\r'` and `'\n'`, from the blob. -/
def tryDecodeCRLFSpec (b : GoStr) : GoStr :=
  let trim := trimB b
  if trim = [] then trim
  else if !possibleB64 trim then b
  else
    match base64Decode trim with
    | some dec => if schemeHit dec then dec else b
    | none =>
      match base64Decode (trim.filter (fun c => !(c = 10 || c = 13))) with
      | some dec2 => if schemeHit dec2 then dec2 else b
      | none => b

/-- A concrete configuration whose lite block sets `n = 5`, run through the
`loadConfig` defaulting. -/
def cfgLiteN5 : Config :=
  applyConfigDefaults
    { allowedSchemes := []
      lite := { strategy := [], maxTotal := 0, perHostLimit := 0, n := 5 }
      subscriptions := [] }

/-- A concrete raw payload of ten distinct `ss://` lines. -/
def tenLinesRaw : GoStr :=
  joinNl [strBytes "ss://a0", strBytes "ss://a1", strBytes "ss://a2", strBytes "ss://a3",
    strBytes "ss://a4", strBytes "ss://a5", strBytes "ss://a6", strBytes "ss://a7",
    strBytes "ss://a8", strBytes "ss://a9"]

/-- A single line one byte longer than the scanner buffer limit. -/
def hugeLine : GoStr := List.replicate (maxScanTokenSize + 1) 97

/-! ## Base64 lemmas -/
theorem b64index_b64chr : ∀ n, n < 64 → b64index (b64chr n) = some n := by decide

theorem b64chr_ne_pad : ∀ n, n < 64 → b64chr n ≠ 61 := by decide

theorem decodeChunks_encodeChunks :
    ∀ bs : List Nat, (∀ b ∈ bs, b < 256) → decodeChunks (encodeChunks bs) = some bs := by
  intro bs
  induction bs using encodeChunks.induct with
  | case1 b0 b1 b2 rest ih =>
    intro h
    have h0 : b0 < 256 := h b0 (by simp)
    have h1 : b1 < 256 := h b1 (by simp)
    have h2 : b2 < 256 := h b2 (by simp)
    have e1 := b64index_b64chr (b0 / 4) (by omega)
    have e2 := b64index_b64chr (b0 % 4 * 16 + b1 / 16) (by omega)
    have e3 := b64index_b64chr (b1 % 16 * 4 + b2 / 64) (by omega)
    have e4 := b64index_b64chr (b2 % 64) (by omega)
    have ne3 := b64chr_ne_pad (b1 % 16 * 4 + b2 / 64) (by omega)
    have ne4 := b64chr_ne_pad (b2 % 64) (by omega)
    have hrest := ih (fun b hb => h b (by simp [hb]))
    simp only [encodeChunks, decodeChunks, e1, e2, e3, e4, if_neg ne3, if_neg ne4, hrest,
      Option.some.injEq, List.cons.injEq]
    refine ⟨by omega, by omega, by omega, ?_⟩
    trivial
  | case2 b0 b1 =>
    intro h
    have h0 : b0 < 256 := h b0 (by simp)
    have h1 : b1 < 256 := h b1 (by simp)
    have e1 := b64index_b64chr (b0 / 4) (by omega)
    have e2 := b64index_b64chr (b0 % 4 * 16 + b1 / 16) (by omega)
    have e3 := b64index_b64chr (b1 % 16 * 4) (by omega)
    have ne3 := b64chr_ne_pad (b1 % 16 * 4) (by omega)
    simp only [encodeChunks, decodeChunks, e1, e2, e3, if_neg ne3, if_pos rfl, if_true,
      Option.some.injEq, List.cons.injEq]
    refine ⟨by omega, by omega, ?_⟩
    trivial
  | case3 b0 =>
    intro h
    have h0 : b0 < 256 := h b0 (by simp)
    have e1 := b64index_b64chr (b0 / 4) (by omega)
    have e2 := b64index_b64chr (b0 % 4 * 16) (by omega)
    simp only [encodeChunks, decodeChunks, e1, e2, if_pos rfl, if_true, Option.some.injEq,
      List.cons.injEq]
    refine ⟨by omega, ?_⟩
    trivial
  | case4 => intro h; rfl

theorem b64chr_not_nl : ∀ n, b64chr n ≠ 10 ∧ b64chr n ≠ 13 := by
  intro n
  unfold b64chr
  split <;> try omega
  split <;> try omega
  split <;> try omega
  split <;> omega

theorem encodeChunks_no_nl :
    ∀ bs : List Nat, ∀ c ∈ encodeChunks bs, c ≠ 10 ∧ c ≠ 13 := by
  intro bs
  induction bs using encodeChunks.induct with
  | case1 b0 b1 b2 rest ih =>
    intro c hc
    simp only [encodeChunks, List.mem_cons] at hc
    rcases hc with rfl | rfl | rfl | rfl | hc
    · exact b64chr_not_nl _
    · exact b64chr_not_nl _
    · exact b64chr_not_nl _
    · exact b64chr_not_nl _
    · exact ih c hc
  | case2 b0 b1 =>
    intro c hc
    simp only [encodeChunks, List.mem_cons] at hc
    rcases hc with rfl | rfl | rfl | rfl | hc
    · exact b64chr_not_nl _
    · exact b64chr_not_nl _
    · exact b64chr_not_nl _
    · omega
    · simp at hc
  | case3 b0 =>
    intro c hc
    simp only [encodeChunks, List.mem_cons] at hc
    rcases hc with rfl | rfl | rfl | rfl | hc
    · exact b64chr_not_nl _
    · exact b64chr_not_nl _
    · omega
    · omega
    · simp at hc
  | case4 => intro c hc; simp [encodeChunks] at hc

theorem base64Decode_encodeChunks (bs : List Nat) (h : ∀ b ∈ bs, b < 256) :
    base64Decode (encodeChunks bs) = some bs := by
  unfold base64Decode
  rw [List.filter_eq_self.mpr, decodeChunks_encodeChunks bs h]
  intro c hc
  have := encodeChunks_no_nl bs c hc
  simp
  omega

/-! ## Join and split on newline -/

theorem splitOnNl_cons_nl (r : GoStr) : splitOnNl (10 :: r) = [] :: splitOnNl r := by
  rw [splitOnNl]
  simp

theorem splitOnNl_cons (a : Nat) (r : GoStr) (ha : a ≠ 10) :
    splitOnNl (a :: r) = (a :: (splitOnNl r).headI) :: (splitOnNl r).tail := by
  rw [splitOnNl]
  simp [ha]

theorem splitOnNl_ne_nil : ∀ l : GoStr, splitOnNl l ≠ [] := by
  intro l
  cases l with
  | nil => simp [splitOnNl]
  | cons a rest =>
    unfold splitOnNl
    split <;> simp

theorem splitOnNl_no_nl : ∀ l : GoStr, 10 ∉ l → splitOnNl l = [l] := by
  intro l
  induction l with
  | nil => intro _; rfl
  | cons a rest ih =>
    intro h
    have ha : a ≠ 10 := by intro e; exact h (by simp [e])
    have hrest : (10 : Nat) ∉ rest := fun hm => h (List.mem_cons_of_mem _ hm)
    rw [splitOnNl_cons a rest ha, ih hrest]
    rfl

theorem splitOnNl_append (l r : GoStr) (h : 10 ∉ l) :
    splitOnNl (l ++ 10 :: r) = l :: splitOnNl r := by
  induction l with
  | nil => exact splitOnNl_cons_nl r
  | cons a rest ih =>
    have ha : a ≠ 10 := by intro e; exact h (by simp [e])
    have hrest : (10 : Nat) ∉ rest := fun hm => h (List.mem_cons_of_mem _ hm)
    rw [List.cons_append, splitOnNl_cons a _ ha, ih hrest]
    rfl

open XraySubRefiner

theorem splitOnNl_joinNl :
    ∀ ls : List GoStr, ls ≠ [] → (∀ l ∈ ls, (10 : Nat) ∉ l) →
      splitOnNl (joinNl ls) = ls := by
  intro ls
  induction ls with
  | nil => intro h; exact absurd rfl h
  | cons l rest ih =>
    intro _ hfree
    match rest with
    | [] => exact splitOnNl_no_nl l (hfree l (by simp))
    | r :: rs =>
      show splitOnNl (joinNl (l :: r :: rs)) = l :: r :: rs
      have : joinNl (l :: r :: rs) = l ++ 10 :: joinNl (r :: rs) := rfl
      rw [this, splitOnNl_append _ _ (hfree l (by simp)),
        ih (by simp) (fun x hx => hfree x (List.mem_cons_of_mem _ hx))]

theorem mem_joinNl (ls : List GoStr) (b : Nat) (hb : b ∈ joinNl ls) :
    b = 10 ∨ ∃ l ∈ ls, b ∈ l := by
  induction ls with
  | nil => simp [joinNl] at hb
  | cons l rest ih =>
    match rest with
    | [] => exact Or.inr ⟨l, by simp, hb⟩
    | r :: rs =>
      have : joinNl (l :: r :: rs) = l ++ 10 :: joinNl (r :: rs) := rfl
      rw [this] at hb
      rcases List.mem_append.mp hb with h | h
      · exact Or.inr ⟨l, by simp, h⟩
      · rcases List.mem_cons.mp h with rfl | h
        · exact Or.inl rfl
        · rcases ih h with h10 | ⟨x, hx, hbx⟩
          · exact Or.inl h10
          · exact Or.inr ⟨x, List.mem_cons_of_mem _ hx, hbx⟩

/-! ## The byte order of sort.Strings -/

theorem leBytes_total : ∀ a b : GoStr, leBytes a b = true ∨ leBytes b a = true
  | [], _ => Or.inl rfl
  | _ :: _, [] => Or.inr rfl
  | a :: as, b :: bs => by
    unfold leBytes
    rcases Nat.lt_trichotomy a b with h | h | h
    · left; simp [h]
    · subst h
      simp only [Nat.lt_irrefl, if_false]
      exact leBytes_total as bs
    · right; simp [h]

theorem leBytes_trans :
    ∀ a b c : GoStr, leBytes a b = true → leBytes b c = true → leBytes a c = true
  | [], _, _ => fun _ _ => rfl
  | _ :: _, [], _ => fun h _ => by simp [leBytes] at h
  | _ :: _, _ :: _, [] => fun _ h => by simp [leBytes] at h
  | a :: as, b :: bs, c :: cs => fun h1 h2 => by
    unfold leBytes at h1 h2 ⊢
    by_cases hab : a < b
    · by_cases hbc : b < c
      · simp [show a < c by omega]
      · have hbc' : b = c := by
          by_contra hne
          have : c < b := by omega
          simp [Nat.not_lt.mpr (Nat.le_of_lt this) , this] at h2
        subst hbc'
        simp [hab]
    · by_cases hba : b < a
      · simp [Nat.not_lt.mpr (Nat.le_of_lt hba), hba] at h1
      · have hab' : a = b := by omega
        subst hab'
        simp only [Nat.lt_irrefl, if_false] at h1 ⊢
        by_cases hac : a < c
        · simp [hac]
        · by_cases hca : c < a
          · simp [Nat.not_lt.mpr (Nat.le_of_lt hca), hca] at h2
          · have : a = c := by omega
            subst this
            simp only [Nat.lt_irrefl, if_false] at h2 ⊢
            exact leBytes_trans as bs cs h1 h2

instance : IsTotal GoStr LeB := ⟨leBytes_total⟩

instance : IsTrans GoStr LeB := ⟨fun a b c => leBytes_trans a b c⟩

theorem sortStrings_perm (l : List GoStr) : (sortStrings l).Perm l :=
  List.perm_insertionSort LeB l

theorem sortStrings_sorted (l : List GoStr) : (sortStrings l).Sorted LeB :=
  List.sorted_insertionSort LeB l

/-! ## buildLiteTail characterization -/

theorem buildLiteTail_eq (normal : List GoStr) (n : Int) :
    buildLiteTail normal n =
      normal.drop (normal.length - min (if n ≤ 0 then 100 else n.toNat) normal.length) := by
  unfold buildLiteTail
  by_cases h0 : n ≤ 0 <;> simp only [if_pos, if_neg, h0, if_true, if_false] <;>
    split <;> (congr 1; omega)

theorem buildLiteTail_length (normal : List GoStr) (n : Int) :
    (buildLiteTail normal n).length =
      min (if n ≤ 0 then 100 else n.toNat) normal.length := by
  rw [buildLiteTail_eq, List.length_drop]
  omega

/-! ## A takeWhile characterization used for the scanner limit -/

theorem takeWhile_eq_take_of_getElem {α : Type} (l : List α) (p : α → Bool) :
    ∀ (i : Nat) (x : α), l[i]? = some x → p x = false →
      (∀ j y, j < i → l[j]? = some y → p y = true) →
      l.takeWhile p = l.take i := by
  induction l with
  | nil => intro i x hx _ _; simp at hx
  | cons a rest ih =>
    intro i x hx hpx hprev
    cases i with
    | zero =>
      simp only [List.getElem?_cons_zero, Option.some.injEq] at hx
      subst hx
      simp [List.takeWhile_cons, hpx]
    | succ i =>
      have hpa : p a = true := hprev 0 a (Nat.succ_pos i) (by simp)
      simp only [List.getElem?_cons_succ] at hx
      simp only [List.takeWhile_cons, hpa, if_true, List.take_succ_cons]
      rw [ih i x hx hpx (fun j y hj hy => hprev (j + 1) y (Nat.succ_lt_succ hj) (by simpa))]

/-- C1 (code bug): on the line `vless://A vmess://B` the multi-URI splitter
does not emit the two claimed segments `vless://A` and `vmess://B`; the
forward search for the next occurrence restarts only 3 bytes into the
current segment (Go line 228, `rest[3:]`), so it re-finds the current
`"://"` and the split comes out as `vless` / `://A vmess` / `://B`. -/
theorem c1_splitPossible_bug :
    splitPossible (strBytes "vless://A vmess://B") =
        [strBytes "vless", strBytes "://A vmess", strBytes "://B"] ∧
      splitPossible (strBytes "vless://A vmess://B") ≠
        [strBytes "vless://A", strBytes "vmess://B"] := by
  constructor
  · decide
  · decide

/-- C8: the lite tail has length `min n (length normal)` (with `n ≤ 0`
treated as the default 100) and consists of exactly the final elements of
`normal` in original insertion order, never sorted. -/
theorem c8_buildLiteTail_spec :
    ∀ (normal : List GoStr) (n : Int),
      (buildLiteTail normal n).length =
          min (if n ≤ 0 then 100 else n.toNat) normal.length ∧
        buildLiteTail normal n =
          normal.drop
            (normal.length - min (if n ≤ 0 then 100 else n.toNat) normal.length) :=
  fun normal n => ⟨buildLiteTail_length normal n, buildLiteTail_eq normal n⟩

/-- C2 counterexample: with the configured lite size 5 and ten distinct
entries, the tail has length 10, not `min 5 10 = 5` — `main` passes the
literal 100 to `buildLiteTail` and ignores `cfg.lite.n`. -/
theorem c2_counterexample :
    ¬ ((processSource cfgLiteN5 tenLinesRaw).2.length =
        min cfgLiteN5.lite.n.toNat (processSource cfgLiteN5 tenLinesRaw).1.length) := by
  decide

/-- C2 (amended): whatever positive value the configuration sets for the
lite block `n`, each source's tail list has length
`min 100 (length NormalList)` — the hard-coded 100 of Go line 88. -/
theorem c2_amended_tail_always_100 :
    ∀ (cfg : Config) (raw : GoStr), 0 < cfg.lite.n →
      (processSource cfg raw).2.length = min 100 (processSource cfg raw).1.length := by
  intro cfg raw _
  unfold processSource
  rw [buildLiteTail_length]
  rfl

/-- C2 witness: the amended statement at the concrete configuration. -/
theorem c2_witness :
    (processSource cfgLiteN5 tenLinesRaw).2.length =
      min 100 (processSource cfgLiteN5 tenLinesRaw).1.length :=
  c2_amended_tail_always_100 cfgLiteN5 tenLinesRaw (by decide)

/-- C5 counterexample: during a write over existing content the final path
passes through a state where no file exists (after `os.Remove(path)`,
Go line 335), so an observer can see neither the previous nor the new
complete content. -/
theorem c5_counterexample :
    ¬ (∀ st ∈ writeAtomicTrace (some (strBytes "old")) [strBytes "new"] 0,
        st = some (strBytes "old") ∨
          st = some (writeBase64AtomicContent [strBytes "new"])) := by
  decide

/-- C5 (amended): every state of the final path during a write is the
previous content, the complete new content, or no file at all; a
partially-written or truncated file is never observable. -/
theorem c5_amended_no_partial :
    ∀ (prev : Option GoStr) (lines : List GoStr) (f : Nat) (st : Option GoStr),
      st ∈ writeAtomicTrace prev lines f →
      st = prev ∨ st = none ∨ st = some (writeBase64AtomicContent lines) := by
  intro prev lines f st hst
  simp only [writeAtomicTrace, List.append_assoc, List.mem_append, List.mem_cons,
    List.mem_replicate, List.not_mem_nil, or_false, List.mem_singleton] at hst
  tauto

/-- C5 witness: the amended statement at a concrete trace state. -/
theorem c5_witness :
    (none : Option GoStr) = some (strBytes "old") ∨ (none : Option GoStr) = none ∨
      (none : Option GoStr) = some (writeBase64AtomicContent [strBytes "new"]) :=
  c5_amended_no_partial (some (strBytes "old")) [strBytes "new"] 0 none (by decide)

/-- C10: when some scanner token exceeds the 10 MB buffer limit, line
extraction stops right there with no error value anywhere: the returned
line list is the tokens before the overlong one, and the filter output is
computed from those lines only — the overlong line and all later lines are
silently dropped. -/
theorem c10_scanner_stops_silently :
    ∀ (b : GoStr) (allowed : List GoStr) (i : Nat) (t : GoStr),
      (scanTokens b)[i]? = some t → maxScanTokenSize < t.length →
      (∀ j u, j < i → (scanTokens b)[j]? = some u → u.length ≤ maxScanTokenSize) →
      goScanLines b = ((scanTokens b).take i).map dropCR ∧
        parseAndFilterLines b allowed =
          (((scanTokens b).take i).map dropCR).flatMap (lineEntries allowed) := by
  intro b allowed i t ht hlen hprev
  have hstop : (scanTokens b).takeWhile (fun u => u.length ≤ maxScanTokenSize) =
      (scanTokens b).take i := by
    refine takeWhile_eq_take_of_getElem _ _ i t ht ?_ ?_
    · simp only [decide_eq_false_iff_not]
      omega
    · intro j y hj hy
      simpa using hprev j y hj hy
  refine ⟨?_, ?_⟩
  · unfold goScanLines
    rw [hstop]
  · unfold parseAndFilterLines goScanLines
    rw [hstop]

/-- C10 witness: a payload that is one single line a byte longer than the
limit produces no lines and no entries. -/
theorem c10_witness :
    goScanLines hugeLine = [] ∧ parseAndFilterLines hugeLine [strBytes "ss"] = [] := by
  have h10 : (10 : Nat) ∉ hugeLine := by
    intro h
    have := (List.mem_replicate.mp h).2
    omega
  have hne : hugeLine ≠ [] := by
    intro h
    have : hugeLine.length = 0 := by rw [h]; rfl
    simp [hugeLine] at this
  have htok : scanTokens hugeLine = [hugeLine] := by
    unfold scanTokens
    rw [if_neg hne, splitOnNl_no_nl _ h10]
    simp [hne]
  have h0 : (scanTokens hugeLine)[0]? = some hugeLine := by rw [htok]; rfl
  have hlen : maxScanTokenSize < hugeLine.length := by
    simp [hugeLine]
  have := c10_scanner_stops_silently hugeLine [strBytes "ss"] 0 hugeLine h0 hlen
    (fun j u hj _ => absurd hj (Nat.not_lt_zero j))
  simpa using this

/-- C4 counterexample: for the empty `normal` list the round-trip fails:
the output payload decodes to the empty byte string, and splitting that on
a newline yields one empty line, not the empty list. -/
theorem c4_counterexample :
    ¬ ((base64Decode (writeBase64SortedContent ([] : List GoStr))).map splitOnNl =
        some (sortStrings ([] : List GoStr))) := by
  decide

/-- C4 (amended): for every nonempty list of newline-free byte strings,
decoding the base64 `normal` output and splitting on a newline
reconstructs exactly `fullSorted`; and (for every list, the empty one
included) `fullSorted` is a permutation of `normal` in non-decreasing
lexicographic byte order.  For the empty list the decoded payload is empty
and splits into one empty line instead. -/
theorem c4_roundtrip_sorted :
    ∀ lines : List GoStr, lines ≠ [] → (∀ l ∈ lines, (10 : Nat) ∉ l) →
      (∀ l ∈ lines, ∀ b ∈ l, b < 256) →
      (base64Decode (writeBase64SortedContent lines)).map splitOnNl =
          some (sortStrings lines) ∧
        (sortStrings lines).Perm lines ∧ (sortStrings lines).Sorted LeB := by
  intro lines hne h10 h256
  have hperm := sortStrings_perm lines
  have hsne : sortStrings lines ≠ [] := by
    intro h
    exact hne (List.Perm.nil_eq (h ▸ hperm)).symm
  have h10s : ∀ l ∈ sortStrings lines, (10 : Nat) ∉ l :=
    fun l hl => h10 l (hperm.mem_iff.mp hl)
  have h256s : ∀ b ∈ joinNl (sortStrings lines), b < 256 := by
    intro b hb
    rcases mem_joinNl _ b hb with rfl | ⟨l, hl, hbl⟩
    · omega
    · exact h256 l (hperm.mem_iff.mp hl) b hbl
  refine ⟨?_, hperm, sortStrings_sorted lines⟩
  unfold writeBase64SortedContent writeBase64AtomicContent
  rw [base64Decode_encodeChunks _ h256s]
  simp only [Option.map_some']
  rw [splitOnNl_joinNl _ hsne h10s]

/-- C4 witness: the amended statement at a concrete two-element list. -/
theorem c4_witness :
    (base64Decode (writeBase64SortedContent [strBytes "b", strBytes "a"])).map splitOnNl =
        some (sortStrings [strBytes "b", strBytes "a"]) ∧
      (sortStrings [strBytes "b", strBytes "a"]).Perm [strBytes "b", strBytes "a"] ∧
        (sortStrings [strBytes "b", strBytes "a"]).Sorted LeB :=
  c4_roundtrip_sorted _ (by decide) (by decide) (by decide)

/-! ## Decoder claims -/

theorem base64Decode_filterLF (l : GoStr) :
    base64Decode (l.filter (fun c => !(c = 10))) = base64Decode l := by
  unfold base64Decode
  rw [List.filter_filter]
  congr 1
  apply List.filter_congr
  intro a _
  by_cases h1 : a = 10 <;> by_cases h2 : a = 13 <;> simp [h1, h2]

theorem base64Decode_filterCRLF (l : GoStr) :
    base64Decode (l.filter (fun c => !(c = 10 || c = 13))) = base64Decode l := by
  unfold base64Decode
  rw [List.filter_filter]
  congr 1
  apply List.filter_congr
  intro a _
  by_cases h1 : a = 10 <;> by_cases h2 : a = 13 <;> simp [h1, h2]

/-- C3: the decoder behaves exactly as if its retry stripped every newline
character, carriage returns included — `tryDecodeIfBase64` is extensionally
equal to the spec-worded variant `tryDecodeCRLFSpec`, because Go's base64
decoder already skips both newline bytes — and any charclass-passing blob
that is valid scheme-bearing base64 once its newline bytes are ignored
(such as a CRLF-wrapped payload) is decoded. -/
theorem c3_decode_retry :
    (∀ b : GoStr, tryDecodeIfBase64 b = tryDecodeCRLFSpec b) ∧
      ∀ (b : GoStr) (dec : List Nat), trimB b ≠ [] → possibleB64 (trimB b) = true →
        decodeChunks ((trimB b).filter (fun c => !(c = 10 || c = 13))) = some dec →
        schemeHit dec = true → tryDecodeIfBase64 b = dec := by
  constructor
  · intro b
    simp only [tryDecodeIfBase64, tryDecodeCRLFSpec, base64Decode_filterLF,
      base64Decode_filterCRLF]
  · intro b dec hne hposs hdec hscheme
    have hdec2 : base64Decode (trimB b) = some dec := hdec
    simp [tryDecodeIfBase64, hne, hposs, hdec2, hscheme]

/-- C3 witness: a CRLF-wrapped base64 payload of `vmess://x` is decoded. -/
theorem c3_witness :
    tryDecodeIfBase64 (strBytes "dm1lc3M6\r\nLy94") = strBytes "vmess://x" :=
  c3_decode_retry.2 (strBytes "dm1lc3M6\r\nLy94") (strBytes "vmess://x")
    (by decide) (by decide) (by decide) (by decide)

/-- C6: when the whole-blob decode succeeds, the decoded bytes are returned
precisely when the (lowercased) decoded text holds `vless://`, `vmess://`
or `ss://`, and the original raw bytes are returned otherwise; in
particular `aGVsbG8gd29ybGQ=` passes through undecoded. -/
theorem c6_scheme_gate :
    (∀ (b : GoStr) (dec : List Nat), trimB b ≠ [] → possibleB64 (trimB b) = true →
        base64Decode (trimB b) = some dec →
        (schemeHit dec = true → tryDecodeIfBase64 b = dec) ∧
          (schemeHit dec = false → tryDecodeIfBase64 b = b)) ∧
      tryDecodeIfBase64 (strBytes "aGVsbG8gd29ybGQ=") = strBytes "aGVsbG8gd29ybGQ=" := by
  constructor
  · intro b dec hne hposs hdec
    constructor
    · intro hs
      simp [tryDecodeIfBase64, hne, hposs, hdec, hs]
    · intro hs
      simp [tryDecodeIfBase64, hne, hposs, hdec, hs]
  · decide

/-- C6 witness: the base64 payload of `ss://A` is decoded to it. -/
theorem c6_witness :
    tryDecodeIfBase64 (strBytes "c3M6Ly9B") = strBytes "ss://A" :=
  (c6_scheme_gate.1 (strBytes "c3M6Ly9B") (strBytes "ss://A")
    (by decide) (by decide) (by decide)).1 (by decide)

/-! ## Trim and dedupe -/

theorem dropWhile_head_not_space {p : Nat → Bool} :
    ∀ (l : GoStr) (a : Nat) (t : GoStr), List.dropWhile p l = a :: t → p a = false := by
  intro l
  induction l with
  | nil => intro a t h; simp at h
  | cons x xs ih =>
    intro a t h
    rw [List.dropWhile_cons] at h
    split at h
    · exact ih a t h
    · rename_i hx
      cases h
      simpa using hx

theorem trimB_idem (l : GoStr) : trimB (trimB l) = trimB l := by
  have hdrop : List.dropWhile isSpaceB (trimB l) = trimB l := by
    cases hB : trimB l with
    | nil => rfl
    | cons b t =>
      have hpre : trimB l <+: List.dropWhile isSpaceB l :=
        List.rdropWhile_prefix isSpaceB (List.dropWhile isSpaceB l)
      rw [hB] at hpre
      obtain ⟨r, hr⟩ := hpre
      have hb : isSpaceB b = false :=
        dropWhile_head_not_space l b (t ++ r) (by rw [← hr]; rfl)
      simp [List.dropWhile_cons, hb]
  show List.rdropWhile isSpaceB (List.dropWhile isSpaceB (trimB l)) = trimB l
  rw [hdrop]
  show List.rdropWhile isSpaceB
      (List.rdropWhile isSpaceB (List.dropWhile isSpaceB l)) = trimB l
  rw [List.rdropWhile_idempotent]
  rfl

theorem dedupeGo_eq :
    ∀ (l : List GoStr) (seen : List GoStr),
      dedupeGo seen l = (dedupSpecFirstSeen l).filter (fun x => decide (x ∉ seen)) := by
  intro l
  induction l with
  | nil => intro seen; rfl
  | cons s rest ih =>
    intro seen
    unfold dedupeGo dedupSpecFirstSeen
    by_cases hk : trimB s = []
    · simp only [if_pos hk]
      exact ih seen
    · simp only [if_neg hk]
      by_cases hseen : trimB s ∈ seen
      · simp only [if_pos hseen, ih seen, List.filter_cons]
        have : (decide (trimB s ∉ seen)) = false := by simp [hseen]
        rw [this]
        simp only [Bool.false_eq_true, if_false, List.filter_filter]
        apply List.filter_congr
        intro x _
        by_cases hxk : x = trimB s
        · subst hxk; simp [hseen]
        · simp [hxk]
      · simp only [if_neg hseen, ih (trimB s :: seen), List.filter_cons]
        have : (decide (trimB s ∉ seen)) = true := by simp [hseen]
        rw [this]
        simp only [if_true, List.filter_filter]
        congr 1
        apply List.filter_congr
        intro x _
        by_cases hxk : x = trimB s
        · subst hxk; simp
        · by_cases hxs : x ∈ seen <;> simp [hxk, hxs]

theorem dedupSpec_nodup : ∀ l : List GoStr, (dedupSpecFirstSeen l).Nodup := by
  intro l
  induction l with
  | nil => exact List.nodup_nil
  | cons s rest ih =>
    unfold dedupSpecFirstSeen
    by_cases hk : trimB s = []
    · simpa [if_pos hk]
    · simp only [if_neg hk]
      refine List.Nodup.cons ?_ (List.Nodup.filter _ ih)
      intro hmem
      have := List.of_mem_filter hmem
      simp at this

theorem mem_dedupSpec :
    ∀ (l : List GoStr) (x : GoStr), x ∈ dedupSpecFirstSeen l →
      x ≠ [] ∧ ∃ s ∈ l, x = trimB s := by
  intro l
  induction l with
  | nil => intro x hx; simp [dedupSpecFirstSeen] at hx
  | cons s rest ih =>
    intro x hx
    unfold dedupSpecFirstSeen at hx
    by_cases hk : trimB s = []
    · rw [if_pos hk] at hx
      obtain ⟨hne, t, ht, he⟩ := ih x hx
      exact ⟨hne, t, List.mem_cons_of_mem _ ht, he⟩
    · rw [if_neg hk] at hx
      rcases List.mem_cons.mp hx with rfl | hx
      · exact ⟨hk, s, by simp, rfl⟩
      · have hx2 := List.mem_of_mem_filter hx
        obtain ⟨hne, t, ht, he⟩ := ih x hx2
        exact ⟨hne, t, List.mem_cons_of_mem _ ht, he⟩

/-- C7: the deduplicated output equals the spec-worded first-seen
deduplication (trim, drop empties, keep the first occurrence of each
distinct trimmed string in input order), no two output entries are equal
after trimming, and every output entry is a nonempty trimmed string. -/
theorem c7_dedupe_spec :
    ∀ l : List GoStr,
      dedupe l = dedupSpecFirstSeen l ∧
        List.Pairwise (fun a b => trimB a ≠ trimB b) (dedupe l) ∧
        ∀ s ∈ dedupe l, trimB s = s ∧ s ≠ [] := by
  intro l
  have heq : dedupe l = dedupSpecFirstSeen l := by
    unfold dedupe
    rw [dedupeGo_eq]
    apply List.filter_eq_self.mpr
    intro x _
    simp
  refine ⟨heq, ?_, ?_⟩
  · rw [heq]
    have hnd := dedupSpec_nodup l
    refine List.Pairwise.imp_of_mem ?_ hnd
    intro a b ha hb hne
    obtain ⟨_, s, _, rfl⟩ := mem_dedupSpec l a ha
    obtain ⟨_, t, _, rfl⟩ := mem_dedupSpec l b hb
    rw [trimB_idem, trimB_idem]
    exact hne
  · intro s hs
    rw [heq] at hs
    obtain ⟨hne, t, _, rfl⟩ := mem_dedupSpec l s hs
    exact ⟨trimB_idem t, hne⟩

/-- C7 witness: the characterization applied at a concrete input list. -/
theorem c7_witness :
    trimB (strBytes "a") = strBytes "a" ∧ strBytes "a" ≠ [] :=
  (c7_dedupe_spec [strBytes " a ", strBytes "a", strBytes "", strBytes "b"]).2.2
    (strBytes "a") (by decide)

/-! ## Scheme filter case handling -/

theorem lower1_idem (b : Nat) : lower1 (lower1 b) = lower1 b := by
  unfold lower1
  by_cases h : (65 ≤ b && b ≤ 90) = true
  · rw [if_pos h, if_neg]
    simp only [Bool.and_eq_true, decide_eq_true_eq] at h ⊢
    omega
  · rw [if_neg h, if_neg h]

theorem lowerB_idem (l : GoStr) : lowerB (lowerB l) = lowerB l := by
  induction l with
  | nil => rfl
  | cons a t ih =>
    show lower1 (lower1 a) :: lowerB (lowerB t) = lower1 a :: lowerB t
    rw [lower1_idem, ih]

theorem beq_lower1_outside (k : Nat) (hk : k < 65 ∨ (90 < k ∧ k < 97) ∨ 122 < k) (x : Nat) :
    (k == lower1 x) = (k == x) := by
  unfold lower1
  split
  · rename_i h
    simp only [Bool.and_eq_true, decide_eq_true_eq] at h
    have h1 : (k == x + 32) = false := by simp only [beq_eq_false_iff_ne, ne_eq]; omega
    have h2 : (k == x) = false := by simp only [beq_eq_false_iff_ne, ne_eq]; omega
    rw [h1, h2]
  · rfl

theorem isPrefixOf_lowerB_of_fixed :
    ∀ (pat s : GoStr), (∀ k ∈ pat, ∀ x : Nat, (k == lower1 x) = (k == x)) →
      pat.isPrefixOf (lowerB s) = pat.isPrefixOf s
  | [], s, _ => by cases s <;> rfl
  | _ :: _, [], _ => rfl
  | p :: ps, a :: t, h => by
    show (p == lower1 a && ps.isPrefixOf (lowerB t)) = (p == a && ps.isPrefixOf t)
    rw [h p (by simp) a,
      isPrefixOf_lowerB_of_fixed ps t (fun k hk => h k (List.mem_cons_of_mem _ hk))]

theorem sep_isPrefixOf_lower (s : GoStr) :
    sep.isPrefixOf (lowerB s) = sep.isPrefixOf s := by
  apply isPrefixOf_lowerB_of_fixed
  intro k hk x
  apply beq_lower1_outside
  rcases List.mem_cons.mp hk with rfl | hk
  · omega
  rcases List.mem_cons.mp hk with rfl | hk
  · omega
  rcases List.mem_cons.mp hk with rfl | hk
  · omega
  · simp at hk

theorem subIdx_sep_lower : ∀ s : GoStr, subIdx sep (lowerB s) = subIdx sep s := by
  intro s
  induction s with
  | nil => rfl
  | cons a t ih =>
    show subIdx sep (lowerB (a :: t)) = subIdx sep (a :: t)
    have hl : lowerB (a :: t) = lower1 a :: lowerB t := rfl
    rw [hl]
    simp only [subIdx]
    rw [show (lower1 a :: lowerB t) = lowerB (a :: t) from rfl, sep_isPrefixOf_lower (a :: t)]
    by_cases h : sep.isPrefixOf (a :: t) = true
    · rw [if_pos h, if_pos h]
    · rw [if_neg h, if_neg h, ih]

theorem isPrefixOfProp (l p : GoStr) : l.isPrefixOf p = true ↔ l <+: p :=
  List.isPrefixOf_iff_prefix

theorem subIdx_isSome_of_occurrence :
    ∀ s : GoStr, sep <:+: s → (subIdx sep s).isSome = true := by
  intro s
  induction s with
  | nil =>
    intro h
    rw [List.infix_nil] at h
    simp [sep] at h
  | cons a t ih =>
    intro h
    rcases List.infix_cons_iff.mp h with hp | hi
    · simp only [subIdx]
      rw [if_pos ((isPrefixOfProp sep (a :: t)).mpr hp)]
      rfl
    · simp only [subIdx]
      by_cases hpre : sep.isPrefixOf (a :: t) = true
      · rw [if_pos hpre]; rfl
      · rw [if_neg hpre]
        have hs := ih hi
        cases hsub : subIdx sep t with
        | none => rw [hsub] at hs; simp at hs
        | some v => rfl

theorem schemeAllowed_subIdx (allowed : List GoStr) (it : GoStr)
    (h : schemeAllowed allowed it = true) : ∃ idx, subIdx sep it = some idx := by
  unfold schemeAllowed at h
  rw [List.any_eq_true] at h
  obtain ⟨sch, _, hpre⟩ := h
  have hp : (sch ++ sep) <+: lowerB it := (isPrefixOfProp _ _).mp hpre
  obtain ⟨r, hr⟩ := hp
  have hinf : sep <:+: lowerB it := ⟨sch, r, by simpa [List.append_assoc] using hr⟩
  have hsome := subIdx_isSome_of_occurrence (lowerB it) hinf
  rw [subIdx_sep_lower] at hsome
  exact Option.isSome_iff_exists.mp hsome

/-- C9: the allowed-scheme comparison is case-insensitive (invariant under
lowercasing the segment), and every emitted entry is its source segment
with exactly the part before the first `"://"` lowercased and every byte
from the first `"://"` onward unchanged. -/
theorem c9_scheme_case :
    (∀ (allowed : List GoStr) (it : GoStr),
        schemeAllowed allowed (lowerB it) = schemeAllowed allowed it) ∧
      ∀ (b : GoStr) (allowed : List GoStr) (e : GoStr), e ∈ parseAndFilterLines b allowed →
        ∃ it idx, schemeAllowed allowed it = true ∧ subIdx sep it = some idx ∧
          e = lowerB (it.take idx) ++ it.drop idx := by
  constructor
  · intro allowed it
    unfold schemeAllowed
    rw [lowerB_idem]
  · intro b allowed e he
    simp only [parseAndFilterLines, List.mem_flatMap] at he
    obtain ⟨raw, _, he⟩ := he
    simp only [lineEntries] at he
    split at he
    · simp at he
    split at he
    · simp at he
    rw [List.mem_flatMap] at he
    obtain ⟨it0, _, he⟩ := he
    simp only [segEntries] at he
    split at he
    · simp at he
    split at he
    · simp at he
    split at he
    · rename_i hallow
      rw [List.mem_singleton] at he
      obtain ⟨idx, hidx⟩ := schemeAllowed_subIdx allowed (trimB it0) hallow
      refine ⟨trimB it0, idx, hallow, hidx, ?_⟩
      rw [he]
      unfold normalizeScheme
      rw [hidx]
    · simp at he

/-- C9 witness: the characterization applied to the entry produced from the
mixed-case segment `SS://Abc`. -/
theorem c9_witness :
    ∃ it idx, schemeAllowed [strBytes "ss"] it = true ∧ subIdx sep it = some idx ∧
      strBytes "ss://Abc" = lowerB (it.take idx) ++ it.drop idx :=
  c9_scheme_case.2 (strBytes "SS://Abc") [strBytes "ss"] (strBytes "ss://Abc") (by decide)

end XraySubRefiner
